import Mathlib

/-!
Verification of the ResumeAI backend core: provider rate limiting and health
tracking, the exact-match response cache, the retrying request helper, the
cover-letter provider dispatch loop (`backend/api/ai.py`), the semantic
similarity cache (`backend/api/semantic_cache.py`), and the A/B testing
engine (`backend/api/ab_testing.py`).

Python `time.time()` / `datetime` timestamps and float quantities are
modelled as exact rationals (`ℚ`); Python dicts are modelled as association
lists in insertion order; fallible code returns `Option`/`Except`.
-/

namespace ResumeAI

/-! ### Rate limiting (`backend/api/ai.py`, `_check_rate_limit`)

`RATE_LIMITS[provider]` is a dict `{"requests": [...], "daily_count": n,
"last_reset": t}`; the per-provider entry is modelled as `RateState` and the
configured caps (`rate_limit_hourly`, `rate_limit_daily`) are passed in. -/

structure RateState where
  requests : List ℚ
  daily_count : ℕ
  last_reset : ℚ
  deriving Repr, DecidableEq

/-- Embedding of `_check_rate_limit` (ai.py lines 282–317): reset the daily
counter after 24h, prune requests older than 1h, deny at the hourly or daily
cap, otherwise record the request.  Returns the Python function's boolean
together with the updated `RATE_LIMITS[provider]` state. -/
def check_rate_limit (hourly daily : ℕ) (now : ℚ) (st : RateState) :
    Bool × RateState :=
  -- "Reset daily counter if needed (24 hours)"
  let st1 : RateState := if now - st.last_reset > 86400 then ⟨[], 0, now⟩ else st
  -- "Remove requests older than 1 hour"
  let pruned := st1.requests.filter (fun t => now - t < 3600)
  -- "Check limits"
  if pruned.length ≥ hourly then (false, ⟨pruned, st1.daily_count, st1.last_reset⟩)
  else if st1.daily_count ≥ daily then (false, ⟨pruned, st1.daily_count, st1.last_reset⟩)
  else
    -- "Record this request"
    (true, ⟨pruned ++ [now], st1.daily_count + 1, st1.last_reset⟩)

/-- C2: `_check_rate_limit` first resets the daily counter (recording a new
window start) when more than 24 hours have elapsed, prunes timestamps older
than one hour, then: denies without recording anything when the pruned hourly
count has reached the hourly cap or the daily counter has reached the daily
cap, and otherwise appends the current timestamp, increments the daily
counter and allows.  In particular a call at the hourly cap is denied, and
once every recorded request is at least an hour old the call is allowed
again. -/
theorem check_rate_limit_spec (hourly daily : ℕ) (now : ℚ) (st : RateState)
    (st1 : RateState)
    (hst1 : st1 = if now - st.last_reset > 86400 then ⟨[], 0, now⟩ else st)
    (pruned : List ℚ)
    (hpr : pruned = st1.requests.filter (fun t => now - t < 3600)) :
    (pruned.length ≥ hourly ∨ st1.daily_count ≥ daily →
      check_rate_limit hourly daily now st =
        (false, ⟨pruned, st1.daily_count, st1.last_reset⟩))
    ∧ (pruned.length < hourly → st1.daily_count < daily →
      check_rate_limit hourly daily now st =
        (true, ⟨pruned ++ [now], st1.daily_count + 1, st1.last_reset⟩))
    ∧ (now - st.last_reset ≤ 86400 →
      hourly ≤ (st.requests.filter (fun t => now - t < 3600)).length →
      (check_rate_limit hourly daily now st).1 = false)
    ∧ (0 < hourly → st1.daily_count < daily →
      (∀ t ∈ st.requests, 3600 ≤ now - t) →
      (check_rate_limit hourly daily now st).1 = true) := by
  have hdef : check_rate_limit hourly daily now st =
      if pruned.length ≥ hourly then (false, ⟨pruned, st1.daily_count, st1.last_reset⟩)
      else if st1.daily_count ≥ daily then (false, ⟨pruned, st1.daily_count, st1.last_reset⟩)
      else (true, ⟨pruned ++ [now], st1.daily_count + 1, st1.last_reset⟩) := by
    rw [hpr, hst1]
    rfl
  refine ⟨?_, ?_, ?_, ?_⟩
  · intro h
    rw [hdef]
    split_ifs with h1 h2
    · rfl
    · rfl
    · omega
  · intro h1 h2
    rw [hdef]
    split_ifs with hc1 hc2
    · omega
    · omega
    · rfl
  · intro hnores hh
    have hst : st1 = st := by
      rw [hst1, if_neg (not_lt.mpr hnores)]
    rw [hdef]
    rw [if_pos (by rw [hpr, hst]; exact hh)]
  · intro hh hd hall
    have hempty : pruned = [] := by
      rw [hpr, hst1]
      split_ifs
      · simp
      · apply List.filter_eq_nil_iff.mpr
        intro t ht
        simpa using not_lt.mpr (hall t ht)
    rw [hdef, hempty]
    rw [if_neg (by simpa using Nat.not_le.mpr hh), if_neg (Nat.not_le.mpr hd)]

/-- Closed witness for `check_rate_limit_spec`: a provider with two requests
inside the current hour and caps (2, 10) is denied, and allowed again once
its requests are an hour old. -/
theorem check_rate_limit_spec_witness :
    (check_rate_limit 2 10 100 ⟨[50, 80], 2, 0⟩).1 = false ∧
    (check_rate_limit 2 10 4000 ⟨[50, 80], 2, 0⟩).1 = true := by
  constructor
  · exact (check_rate_limit_spec 2 10 100 ⟨[50, 80], 2, 0⟩ ⟨[50, 80], 2, 0⟩
      (by norm_num) [50, 80] (by norm_num)).2.2.1 (by norm_num) (by norm_num)
  · exact (check_rate_limit_spec 2 10 4000 ⟨[50, 80], 2, 0⟩ ⟨[50, 80], 2, 0⟩
      (by norm_num) [] (by norm_num)).2.2.2 (by norm_num) (by norm_num)
      (by intro t ht; fin_cases ht <;> norm_num)

/-! ### Exact-match response cache (`backend/api/ai.py`, `_ai_cache`)

The module-level dict `_ai_cache : key → {"response", "timestamp"}` is
modelled as an association list in insertion order; `ai_config.cache`'s
`enabled`, `ttl_seconds` and `max_size` are passed in as parameters. -/

structure CacheEntry where
  response : String
  timestamp : ℚ
  deriving Repr, DecidableEq

/-- Lookup in a Python dict modelled as an association list. -/
def dictLookup {β : Type} (k : String) : List (String × β) → Option β
  | [] => none
  | (k', v) :: rest => if k' = k then some v else dictLookup k rest

/-- Python dict assignment `d[k] = v`: replaces the binding in place when the
key is present (keeping its position; dict keys are unique), otherwise
appends it. -/
def dictInsert {β : Type} (k : String) (v : β) :
    List (String × β) → List (String × β)
  | [] => [(k, v)]
  | (k', v') :: rest =>
    if k' = k then (k, v) :: rest else (k', v') :: dictInsert k v rest

/-- Python dict deletion `del d[k]`. -/
def dictErase {β : Type} (k : String) (l : List (String × β)) :
    List (String × β) :=
  l.filter (fun p => p.1 ≠ k)

/-- `min(_ai_cache.keys(), key=lambda k: _ai_cache[k]["timestamp"])`: the
first key holding the minimal timestamp (Python `min` keeps the earliest
minimum). -/
def oldestKey (l : List (String × CacheEntry)) : Option String :=
  (l.foldl (fun acc p =>
    match acc with
    | none => some p
    | some q => if p.2.timestamp < q.2.timestamp then some p else some q) none).map
    Prod.fst

/-- Embedding of `_get_cached_response` (ai.py lines 346–359): returns the
cached value while `now - inserted_at < ttl`, evicting a stale entry.
Returns the value together with the updated `_ai_cache`. -/
def get_cached_response (enabled : Bool) (ttl now : ℚ)
    (cache : List (String × CacheEntry)) (key : String) :
    Option String × List (String × CacheEntry) :=
  if !enabled then (none, cache)
  else
    match dictLookup key cache with
    | some e =>
      if now - e.timestamp < ttl then (some e.response, cache)
      else (none, dictErase key cache)
    | none => (none, cache)

/-- Embedding of `_cache_response` (ai.py lines 362–375): at capacity the
single oldest entry by timestamp is evicted, then the new entry is stored.
(When the guarded `min` has no key to return — only possible with
`max_size = 0` and an empty cache — the Python code would raise; the eviction
is modelled as a no-op there.) -/
def cache_response (enabled : Bool) (maxSize : ℕ) (now : ℚ)
    (cache : List (String × CacheEntry)) (key response : String) :
    List (String × CacheEntry) :=
  if !enabled then cache
  else
    let c1 :=
      if cache.length ≥ maxSize then
        match oldestKey cache with
        | some k => dictErase k cache
        | none => cache
      else cache
    dictInsert key ⟨response, now⟩ c1

theorem dictLookup_nil {β : Type} (k : String) :
    dictLookup (β := β) k [] = none := rfl

theorem dictLookup_cons {β : Type} (k k' : String) (v' : β)
    (rest : List (String × β)) :
    dictLookup k ((k', v') :: rest) =
      if k' = k then some v' else dictLookup k rest := rfl

theorem dictLookup_dictInsert {β : Type} (k : String) (v : β)
    (l : List (String × β)) : dictLookup k (dictInsert k v l) = some v := by
  induction l with
  | nil => simp [dictInsert, dictLookup_cons]
  | cons p rest ih =>
    obtain ⟨k', v'⟩ := p
    by_cases hp : k' = k
    · simp [dictInsert, hp, dictLookup_cons]
    · simp [dictInsert, hp, dictLookup_cons, ih]

theorem dictLookup_dictErase {β : Type} (k : String)
    (l : List (String × β)) : dictLookup k (dictErase k l) = none := by
  induction l with
  | nil => rfl
  | cons p rest ih =>
    obtain ⟨k', v'⟩ := p
    by_cases hp : k' = k
    · simpa [dictErase, List.filter_cons, hp] using ih
    · simpa [dictErase, List.filter_cons, hp, dictLookup_cons] using ih

/-- C6: with the cache enabled, after `_cache_response(k, P)` a
`_get_cached_response(k)` returns `P` whenever the elapsed time since
insertion is strictly below the TTL, and returns nothing — removing the
stale entry — once the TTL has elapsed. -/
theorem response_cache_put_get (maxSize : ℕ) (ttl : ℚ)
    (cache : List (String × CacheEntry)) (key P : String) (t_put t_get : ℚ) :
    (t_get - t_put < ttl →
      (get_cached_response true ttl t_get
        (cache_response true maxSize t_put cache key P) key).1 = some P)
    ∧ (ttl ≤ t_get - t_put →
      (get_cached_response true ttl t_get
        (cache_response true maxSize t_put cache key P) key).1 = none ∧
      dictLookup key (get_cached_response true ttl t_get
        (cache_response true maxSize t_put cache key P) key).2 = none) := by
  have hlook : dictLookup key (cache_response true maxSize t_put cache key P) =
      some ⟨P, t_put⟩ := by
    unfold cache_response
    simp only [Bool.not_true, if_neg (by simp : ¬((false : Bool) = true))]
    exact dictLookup_dictInsert key (⟨P, t_put⟩ : CacheEntry) _
  constructor
  · intro hfresh
    unfold get_cached_response
    rw [hlook]
    simp [hfresh]
  · intro hstale
    unfold get_cached_response
    rw [hlook]
    simp only [Bool.not_true, if_neg (by simp : ¬((false : Bool) = true))]
    rw [if_neg (not_lt.mpr hstale)]
    exact ⟨rfl, dictLookup_dictErase key _⟩

/-- Closed witness for `response_cache_put_get` at a concrete cache state:
inserted at time 10 with TTL 100, the value is served at time 50 and gone at
time 110. -/
theorem response_cache_put_get_witness :
    (get_cached_response true 100 50
      (cache_response true 2 10 [("other", (⟨"old", 0⟩ : CacheEntry))] "k" "P") "k").1 = some "P"
    ∧ (get_cached_response true 100 110
      (cache_response true 2 10 [("other", (⟨"old", 0⟩ : CacheEntry))] "k" "P") "k").1 = none := by
  constructor
  · exact (response_cache_put_get 2 100 [("other", (⟨"old", 0⟩ : CacheEntry))] "k" "P" 10 50).1
      (by norm_num)
  · exact ((response_cache_put_get 2 100 [("other", (⟨"old", 0⟩ : CacheEntry))] "k" "P" 10 110).2
      (by norm_num)).1

/-! ### Retry helper (`backend/api/ai.py`, `_make_request_with_retry`)

One invocation of `func` per loop iteration; the outcome of the `attempt`-th
invocation is given by `f attempt` — either a returned string (`ok`) or a
raised exception with its message (`err`).  Python's `if result:` is the
string-truthiness test, i.e. `result ≠ ""`. -/

inductive AttemptResult where
  | ok : String → AttemptResult
  | err : String → AttemptResult
  deriving Repr, DecidableEq

/-- The retry loop of `_make_request_with_retry` from loop index `attempt`
with `remaining` iterations left (`remaining = max_retries - attempt`).
Returns the final outcome (`Except.error` = exception propagated to the
caller), the list of back-off sleeps performed, and the number of calls made
to `func`. -/
def retryFrom (f : ℕ → AttemptResult) (base : ℚ) :
    ℕ → ℕ → Except String String × List ℚ × ℕ
  | _, 0 => (.error "Unknown error in retry logic", [], 0)
  | attempt, r + 1 =>
    match f attempt with
    | .ok s =>
      if s = "" then
        -- `raise ValueError("Empty response from API")`, caught by the same handler
        if r = 0 then (.error "Empty response from API", [], 1)
        else
          let res := retryFrom f base (attempt + 1) r
          (res.1, base * 2 ^ attempt :: res.2.1, res.2.2 + 1)
      else (.ok s, [], 1)
    | .err e =>
      if r = 0 then (.error e, [], 1)
      else
        let res := retryFrom f base (attempt + 1) r
        (res.1, base * 2 ^ attempt :: res.2.1, res.2.2 + 1)

/-- Embedding of `_make_request_with_retry` (ai.py lines 428–452), defaults
`max_retries = 3`, `base_delay = 1.0`. -/
def make_request_with_retry (f : ℕ → AttemptResult) (max_retries : ℕ := 3)
    (base : ℚ := 1) : Except String String × List ℚ × ℕ :=
  retryFrom f base 0 max_retries

theorem retryFrom_zero (f : ℕ → AttemptResult) (base : ℚ) (attempt : ℕ) :
    retryFrom f base attempt 0 = (.error "Unknown error in retry logic", [], 0) :=
  rfl

theorem retryFrom_step_ok (f : ℕ → AttemptResult) (base : ℚ)
    (attempt r : ℕ) (s : String) (hf : f attempt = .ok s) (hs : s ≠ "") :
    retryFrom f base attempt (r + 1) = (.ok s, [], 1) := by
  conv_lhs => rw [retryFrom]
  rw [hf]
  simp [hs]

theorem retryFrom_step_empty (f : ℕ → AttemptResult) (base : ℚ)
    (attempt r : ℕ) (hf : f attempt = .ok "") :
    retryFrom f base attempt (r + 1) =
      if r = 0 then (.error "Empty response from API", [], 1)
      else ((retryFrom f base (attempt + 1) r).1,
        base * 2 ^ attempt :: (retryFrom f base (attempt + 1) r).2.1,
        (retryFrom f base (attempt + 1) r).2.2 + 1) := by
  conv_lhs => rw [retryFrom]
  rw [hf]
  rfl

theorem retryFrom_step_err (f : ℕ → AttemptResult) (base : ℚ)
    (attempt r : ℕ) (e : String) (hf : f attempt = .err e) :
    retryFrom f base attempt (r + 1) =
      if r = 0 then (.error e, [], 1)
      else ((retryFrom f base (attempt + 1) r).1,
        base * 2 ^ attempt :: (retryFrom f base (attempt + 1) r).2.1,
        (retryFrom f base (attempt + 1) r).2.2 + 1) := by
  conv_lhs => rw [retryFrom]
  rw [hf]

theorem retryFrom_calls_sleeps (f : ℕ → AttemptResult) (base : ℚ) :
    ∀ (r attempt : ℕ),
      (retryFrom f base attempt r).2.2 ≤ r ∧
      (1 ≤ r → 1 ≤ (retryFrom f base attempt r).2.2) ∧
      (retryFrom f base attempt r).2.1 =
        (List.range' attempt ((retryFrom f base attempt r).2.2 - 1)).map
          (fun j => base * 2 ^ j)
  | 0, attempt => by simp [retryFrom_zero]
  | r + 1, attempt => by
    have ih := retryFrom_calls_sleeps f base r (attempt + 1)
    match hf : f attempt with
    | .ok s =>
      by_cases hs : s = ""
      · subst hs
        rw [retryFrom_step_empty f base attempt r hf]
        rcases Nat.eq_zero_or_pos r with hr | hr
        · subst hr
          simp
        · have hr0 : r ≠ 0 := by omega
          rw [if_neg hr0]
          obtain ⟨c, hc⟩ : ∃ c, (retryFrom f base (attempt + 1) r).2.2 = c + 1 :=
            ⟨(retryFrom f base (attempt + 1) r).2.2 - 1, by have := ih.2.1 hr; omega⟩
          refine ⟨?_, ?_, ?_⟩
          · have h1 := ih.1
            simp only [Prod.snd]
            omega
          · intro _
            simp only [Prod.snd]
            omega
          · simp only [Prod.snd, Prod.fst]
            rw [ih.2.2, hc]
            simp [List.range'_succ]
      · rw [retryFrom_step_ok f base attempt r s hf hs]
        simp
    | .err e =>
      rw [retryFrom_step_err f base attempt r e hf]
      rcases Nat.eq_zero_or_pos r with hr | hr
      · subst hr
        simp
      · have hr0 : r ≠ 0 := by omega
        rw [if_neg hr0]
        obtain ⟨c, hc⟩ : ∃ c, (retryFrom f base (attempt + 1) r).2.2 = c + 1 :=
          ⟨(retryFrom f base (attempt + 1) r).2.2 - 1, by have := ih.2.1 hr; omega⟩
        refine ⟨?_, ?_, ?_⟩
        · have h1 := ih.1
          simp only [Prod.snd]
          omega
        · intro _
          simp only [Prod.snd]
          omega
        · simp only [Prod.snd, Prod.fst]
          rw [ih.2.2, hc]
          simp [List.range'_succ]

theorem retryFrom_empty_as_error (f : ℕ → AttemptResult) (base : ℚ) (i : ℕ)
    (hi : f i = .ok "") :
    ∀ (r attempt : ℕ),
      retryFrom (fun j => if j = i then .err "Empty response from API" else f j)
        base attempt r = retryFrom f base attempt r
  | 0, attempt => rfl
  | r + 1, attempt => by
    have ih := retryFrom_empty_as_error f base i hi r (attempt + 1)
    by_cases hai : attempt = i
    · subst hai
      rw [retryFrom_step_err _ base attempt r "Empty response from API"
        (by simp)]
      rw [retryFrom_step_empty f base attempt r hi]
      rcases Nat.eq_zero_or_pos r with hr | hr
      · subst hr
        simp
      · have hr0 : r ≠ 0 := by omega
        rw [if_neg hr0, if_neg hr0, ih]
    · match hf : f attempt with
      | .ok s =>
        by_cases hs : s = ""
        · subst hs
          rw [retryFrom_step_empty _ base attempt r (by simp [hai, hf]),
            retryFrom_step_empty f base attempt r hf]
          rcases Nat.eq_zero_or_pos r with hr | hr
          · subst hr
            simp
          · have hr0 : r ≠ 0 := by omega
            rw [if_neg hr0, if_neg hr0, ih]
        · rw [retryFrom_step_ok _ base attempt r s (by simp [hai, hf]) hs,
            retryFrom_step_ok f base attempt r s hf hs]
      | .err e =>
        rw [retryFrom_step_err _ base attempt r e (by simp [hai, hf]),
          retryFrom_step_err f base attempt r e hf]
        rcases Nat.eq_zero_or_pos r with hr | hr
        · subst hr
          simp
        · have hr0 : r ≠ 0 := by omega
          rw [if_neg hr0, if_neg hr0, ih]

theorem retryFrom_all_fail_error (f : ℕ → AttemptResult) (base : ℚ) :
    ∀ (r attempt : ℕ),
      (∀ i, attempt ≤ i → i < attempt + r → f i = .ok "" ∨ ∃ e, f i = .err e) →
      ∃ e, (retryFrom f base attempt r).1 = .error e
  | 0, attempt, _ => ⟨"Unknown error in retry logic", rfl⟩
  | r + 1, attempt, hall => by
    have hcur := hall attempt le_rfl (by omega)
    rcases hcur with hcur | ⟨e, hcur⟩
    · rw [retryFrom_step_empty f base attempt r hcur]
      rcases Nat.eq_zero_or_pos r with hr | hr
      · subst hr
        exact ⟨"Empty response from API", rfl⟩
      · have hr0 : r ≠ 0 := by omega
        rw [if_neg hr0]
        obtain ⟨e', he'⟩ := retryFrom_all_fail_error f base r (attempt + 1)
          (fun i h1 h2 => hall i (by omega) (by omega))
        exact ⟨e', by simpa using he'⟩
    · rw [retryFrom_step_err f base attempt r e hcur]
      rcases Nat.eq_zero_or_pos r with hr | hr
      · subst hr
        exact ⟨e, rfl⟩
      · have hr0 : r ≠ 0 := by omega
        rw [if_neg hr0]
        obtain ⟨e', he'⟩ := retryFrom_all_fail_error f base r (attempt + 1)
          (fun i h1 h2 => hall i (by omega) (by omega))
        exact ⟨e', by simpa using he'⟩


/-- C5 (amended): `_make_request_with_retry` calls the invocation function at
most `max_retries` times, sleeping `base_delay * 2 ^ attempt` between
consecutive attempts; an *empty* response is raised as
`ValueError("Empty response from API")` and from then on handled exactly
like a transport error; when every attempt fails the last error is raised to
the caller.  (A whitespace-only response is truthy in Python and is returned
as a success — see `retry_blank_response_succeeds`.) -/
theorem make_request_with_retry_spec (f : ℕ → AttemptResult) (mr : ℕ)
    (base : ℚ) :
    (make_request_with_retry f mr base).2.2 ≤ mr
    ∧ (make_request_with_retry f mr base).2.1 =
        (List.range ((make_request_with_retry f mr base).2.2 - 1)).map
          (fun j => base * 2 ^ j)
    ∧ (∀ i, f i = .ok "" →
        make_request_with_retry
          (fun j => if j = i then .err "Empty response from API" else f j) mr base
          = make_request_with_retry f mr base)
    ∧ ((∀ i, i < mr → f i = .ok "" ∨ ∃ e, f i = .err e) →
        ∃ e, (make_request_with_retry f mr base).1 = .error e) := by
  refine ⟨(retryFrom_calls_sleeps f base mr 0).1, ?_, ?_, ?_⟩
  · have h := (retryFrom_calls_sleeps f base mr 0).2.2
    rw [make_request_with_retry, h, List.range_eq_range']
  · intro i hi
    exact retryFrom_empty_as_error f base i hi mr 0
  · intro hall
    exact retryFrom_all_fail_error f base mr 0
      (fun i h1 h2 => hall i (by omega))

/-- Closed witness for `make_request_with_retry_spec` at the default
parameters: an error on the first attempt followed by a success gives one
1-second back-off sleep and two calls; three straight failures raise the
last error. -/
theorem make_request_with_retry_spec_witness :
    (make_request_with_retry
      (fun j => if j = 0 then .err "boom" else .ok "text") 3 1).2.2 ≤ 3
    ∧ (∃ e, (make_request_with_retry (fun _ => .err "down") 3 1).1 = .error e) :=
  ⟨(make_request_with_retry_spec
      (fun j => if j = 0 then .err "boom" else .ok "text") 3 1).1,
   (make_request_with_retry_spec (fun _ => .err "down") 3 1).2.2.2
      (fun _ _ => Or.inr ⟨"down", rfl⟩)⟩

/-- C5 counterexample: a whitespace-only ("blank") response is *not* treated
as a failure — `if result:` is true for `" "`, so the blank string is
returned as a success on the first attempt, with no retry and no error. -/
theorem retry_blank_response_succeeds :
    make_request_with_retry (fun _ => .ok " ") 3 1 = (.ok " ", [], 1) := by
  rw [make_request_with_retry,
    retryFrom_step_ok (fun _ => .ok " ") 1 0 2 " " rfl (by decide)]

/-! ### Cover-letter provider dispatch loop (`backend/api/ai.py`,
`generate_cover_letter`, lines 2285–2360)

The `for provider in providers:` loop.  `health p` is
`PROVIDER_HEALTH[p]["failures"]` at loop entry, `hasKey p` is the presence of
the provider's API key in the environment, and `attempt p` is the outcome of
`_make_request_with_retry(..._generate, prompt, timeout)` for provider `p`
(a returned text or a raised exception).  On an error the loop calls
`_update_provider_health(provider, False)`, incrementing that provider's
failure count, which is threaded into the recursion; on success it returns
`(provider, out, trace)` at once.  The loop never consults `_check_rate_limit`
(that function is defined in `ai.py` but has no caller). -/

structure TraceEntry where
  provider : String
  status : String
  reason : String
  deriving Repr, DecidableEq

/-- The provider loop of `generate_cover_letter`: returns
`some (provider, content)` for the first successful provider (`none` when
every candidate is exhausted, after which the caller builds fallback
content) together with the trace entries the loop appends. -/
def cover_letter_provider_loop (health : String → ℕ) (hasKey : String → Bool)
    (attempt : String → AttemptResult) :
    List String → Option (String × String) × List TraceEntry
  | [] => (none, [])
  | p :: rest =>
    if p = "mock" then cover_letter_provider_loop health hasKey attempt rest
    else if 5 < health p then
      -- "Skip providers with too many recent failures"
      let out := cover_letter_provider_loop health hasKey attempt rest
      (out.1, ⟨p, "skipped", "too_many_failures"⟩ :: out.2)
    else if (p == "gemini" || p == "deepseek" || p == "groq") && hasKey p then
      match attempt p with
      | .ok s => (some (p, s), [⟨p, "success", ""⟩])
      | .err e =>
        -- `_update_provider_health(provider, False)` then continue
        let health' := fun q => if q = p then health q + 1 else health q
        let out := cover_letter_provider_loop health' hasKey attempt rest
        (out.1, ⟨p, "error", e⟩ :: out.2)
    else cover_letter_provider_loop health hasKey attempt rest

theorem cover_letter_provider_loop_trace_mem (hasKey : String → Bool)
    (attempt : String → AttemptResult) :
    ∀ (providers : List String) (health : String → ℕ),
      ∀ e ∈ (cover_letter_provider_loop health hasKey attempt providers).2,
        e.provider ∈ providers
  | [], _, e, he => by simp [cover_letter_provider_loop] at he
  | p :: rest, health, e, he => by
    unfold cover_letter_provider_loop at he
    by_cases hm : p = "mock"
    · rw [if_pos hm] at he
      exact List.mem_cons_of_mem p
        (cover_letter_provider_loop_trace_mem hasKey attempt rest health e he)
    · rw [if_neg hm] at he
      by_cases hh : 5 < health p
      · rw [if_pos hh] at he
        rcases List.mem_cons.mp he with he | he
        · subst he
          exact List.mem_cons_self p rest
        · exact List.mem_cons_of_mem p
            (cover_letter_provider_loop_trace_mem hasKey attempt rest health e he)
      · rw [if_neg hh] at he
        by_cases hk : ((p == "gemini" || p == "deepseek" || p == "groq")
            && hasKey p) = true
        · rw [if_pos hk] at he
          match ha : attempt p with
          | .ok s =>
            rw [ha] at he
            rcases List.mem_cons.mp he with he | he
            · subst he
              exact List.mem_cons_self p rest
            · simp at he
          | .err msg =>
            rw [ha] at he
            rcases List.mem_cons.mp he with he | he
            · subst he
              exact List.mem_cons_self p rest
            · exact List.mem_cons_of_mem p
                (cover_letter_provider_loop_trace_mem hasKey attempt rest _ e he)
        · rw [if_neg hk] at he
          exact List.mem_cons_of_mem p
            (cover_letter_provider_loop_trace_mem hasKey attempt rest health e he)

/-- C1 (amended): with pairwise-distinct candidates, a trace entry of the
cover-letter dispatch loop is marked `skipped` only for a provider whose
consecutive-failure count exceeds 5 (reason `too_many_failures`), and every
attempted provider (`success` or `error` entry) has failure count at most 5
and a configured API key.  Rate limiting plays no part: the loop never calls
`_check_rate_limit` (see `cover_letter_loop_ignores_rate_limit`). -/
theorem cover_letter_loop_skips_only_on_health (hasKey : String → Bool)
    (attempt : String → AttemptResult) :
    ∀ (providers : List String) (health : String → ℕ),
      providers.Nodup →
      ∀ e ∈ (cover_letter_provider_loop health hasKey attempt providers).2,
        (e.status = "skipped" →
          5 < health e.provider ∧ e.reason = "too_many_failures")
        ∧ (e.status = "success" ∨ e.status = "error" →
          health e.provider ≤ 5 ∧ hasKey e.provider = true)
  | [], _, _, e, he => by simp [cover_letter_provider_loop] at he
  | p :: rest, health, hnd, e, he => by
    have hnd' : rest.Nodup := (List.nodup_cons.mp hnd).2
    have hpnot : p ∉ rest := (List.nodup_cons.mp hnd).1
    unfold cover_letter_provider_loop at he
    by_cases hm : p = "mock"
    · rw [if_pos hm] at he
      exact cover_letter_loop_skips_only_on_health hasKey attempt rest health
        hnd' e he
    · rw [if_neg hm] at he
      by_cases hh : 5 < health p
      · rw [if_pos hh] at he
        rcases List.mem_cons.mp he with he | he
        · subst he
          refine ⟨fun _ => ⟨hh, rfl⟩, fun hc => ?_⟩
          rcases hc with hc | hc <;> simp at hc
        · exact cover_letter_loop_skips_only_on_health hasKey attempt rest
            health hnd' e he
      · rw [if_neg hh] at he
        by_cases hk : ((p == "gemini" || p == "deepseek" || p == "groq")
            && hasKey p) = true
        · rw [if_pos hk] at he
          have hk' := hk
          simp only [Bool.and_eq_true] at hk'
          have hkey : hasKey p = true := hk'.2
          match ha : attempt p with
          | .ok s =>
            rw [ha] at he
            rcases List.mem_cons.mp he with he | he
            · subst he
              refine ⟨fun hc => by simp at hc, fun _ => ⟨le_of_not_lt hh, hkey⟩⟩
            · simp at he
          | .err msg =>
            rw [ha] at he
            rcases List.mem_cons.mp he with he | he
            · subst he
              refine ⟨fun hc => by simp at hc, fun _ => ⟨le_of_not_lt hh, hkey⟩⟩
            · have hmem := cover_letter_provider_loop_trace_mem hasKey attempt
                rest (fun q => if q = p then health q + 1 else health q) e he
              have hne : e.provider ≠ p := fun hc => hpnot (hc ▸ hmem)
              have ih := cover_letter_loop_skips_only_on_health hasKey attempt
                rest (fun q => if q = p then health q + 1 else health q) hnd' e he
              simpa [if_neg hne] using ih
        · rw [if_neg hk] at he
          exact cover_letter_loop_skips_only_on_health hasKey attempt rest
            health hnd' e he

/-- Closed witness for `cover_letter_loop_skips_only_on_health`: with
`gemini` at 7 failures and `groq` healthy, the trace's `skipped` entry is
for the over-ceiling provider and the attempted one is healthy with a key. -/
theorem cover_letter_loop_skips_only_on_health_witness :
    (⟨"gemini", "skipped", "too_many_failures"⟩ : TraceEntry) ∈
      (cover_letter_provider_loop (fun q => if q = "gemini" then 7 else 0)
        (fun _ => true) (fun _ => .ok "letter") ["gemini", "groq"]).2
    ∧ ((⟨"gemini", "skipped", "too_many_failures"⟩ : TraceEntry).status = "skipped" →
        5 < (fun q => if q = "gemini" then 7 else 0) "gemini" ∧
        (⟨"gemini", "skipped", "too_many_failures"⟩ : TraceEntry).reason =
          "too_many_failures") := by
  constructor
  · decide
  · exact fun h =>
      (cover_letter_loop_skips_only_on_health (fun _ => true)
        (fun _ => .ok "letter") ["gemini", "groq"]
        (fun q => if q = "gemini" then 7 else 0) (by decide)
        ⟨"gemini", "skipped", "too_many_failures"⟩ (by decide)).1 h

/-- C1 counterexample: a provider whose rate-limit state is *denied* by
`_check_rate_limit` (here `gemini` at an hourly cap of 1 with one request in
the current window) is still attempted — and succeeds — in the dispatch
loop, with no `skipped` trace entry: the loop never consults the rate
limiter, refuting "skip if `checkAndReserve` denies it". -/
theorem cover_letter_loop_ignores_rate_limit :
    (check_rate_limit 1 500 100 ⟨[50], 3, 0⟩).1 = false
    ∧ cover_letter_provider_loop (fun _ => 0) (fun _ => true)
        (fun _ => .ok "letter") ["gemini"]
      = (some ("gemini", "letter"), [⟨"gemini", "success", ""⟩]) := by
  constructor
  · norm_num [check_rate_limit, List.filter]
  · decide

/-! ### A/B testing engine (`backend/api/ab_testing.py`)

`ABTestManager.tests : Dict[str, ABTestConfig]` and
`ABTestManager.events : List[ABTestEvent]`.  `datetime` values are rational
timestamps (seconds); `timedelta(days=d)` is `86400 * d`.  MD5 hashing
(`int(hashlib.md5(x.encode()).hexdigest(), 16)`) is kept abstract as a
function parameter `md5n : String → ℕ`: the proofs use only that it is a
function of its input string. -/

structure ABTestConfig where
  test_id : String
  name : String
  description : String
  variants : List String
  traffic_split : List (String × ℚ)
  start_date : ℚ
  end_date : Option ℚ
  target_metric : String
  minimum_sample_size : ℕ
  statistical_significance : ℚ
  is_active : Bool
  created_by : String
  deriving Repr, DecidableEq

structure ABTestEvent where
  test_id : String
  user_id : String
  variant : String
  timestamp : ℚ
  metrics : List (String × ℚ)
  metadata : List (String × String)
  deriving Repr, DecidableEq

structure ABTestManager where
  tests : List (String × ABTestConfig)
  events : List ABTestEvent
  deriving Repr, DecidableEq

/-- `set(variants) == set(traffic_split.keys())` as mutual containment. -/
def sameKeySet (variants keys : List String) : Bool :=
  variants.all (fun v => keys.contains v) && keys.all (fun k => variants.contains k)

/-- Embedding of `ABTestManager.create_test` (ab_testing.py lines 120–163):
validates the traffic split (sum within 0.01 of 1.0) and the variant/key set
equality before touching the store, then rejects duplicate ids, then inserts
the new active config.  `Except.error` models the raised `ValueError`, in
which case the caller's store is untouched. -/
def create_test (now : ℚ) (m : ABTestManager) (test_id name description : String)
    (variants : List String) (traffic_split : List (String × ℚ))
    (target_metric : String) (duration_days : ℕ := 30)
    (minimum_sample_size : ℕ := 100) (statistical_significance : ℚ := 1/20)
    (created_by : String := "system") :
    Except String (ABTestManager × ABTestConfig) :=
  -- "Validate traffic split"
  if |((traffic_split.map Prod.snd).sum) - 1| > 1/100 then
    .error "Traffic split must sum to 1.0"
  else if sameKeySet variants (traffic_split.map Prod.fst) = false then
    .error "Variants and traffic split keys must match"
  else if (dictLookup test_id m.tests).isSome then
    .error ("Test " ++ test_id ++ " already exists")
  else
    let cfg : ABTestConfig :=
      ⟨test_id, name, description, variants, traffic_split, now,
        some (now + 86400 * duration_days), target_metric, minimum_sample_size,
        statistical_significance, true, created_by⟩
    .ok ({ m with tests := dictInsert test_id cfg m.tests }, cfg)

/-- C9: `create_test` rejects an invalid configuration — a traffic split not
summing to 1.0 within tolerance 0.01, or a variant set differing from the
traffic-split key set — with a `ValueError` raised before anything is
inserted into the experiment store (the `Except.error` result carries no
updated store; the checks precede the insertion in the source). -/
theorem create_test_rejects_invalid (now : ℚ) (m : ABTestManager)
    (test_id name description : String) (variants : List String)
    (traffic_split : List (String × ℚ)) (target_metric : String)
    (duration_days minimum_sample_size : ℕ) (statistical_significance : ℚ)
    (created_by : String)
    (hbad : |((traffic_split.map Prod.snd).sum) - 1| > 1/100 ∨
      sameKeySet variants (traffic_split.map Prod.fst) = false) :
    ∃ msg, create_test now m test_id name description variants traffic_split
      target_metric duration_days minimum_sample_size statistical_significance
      created_by = .error msg := by
  unfold create_test
  rcases hbad with hbad | hbad
  · rw [if_pos hbad]
    exact ⟨_, rfl⟩
  · split_ifs with h1
    · exact ⟨_, rfl⟩
    · exact ⟨_, rfl⟩

/-- Closed witness for `create_test_rejects_invalid`: a split summing to 1.1
is rejected, as is a key-set mismatch. -/
theorem create_test_rejects_invalid_witness :
    (∃ msg, create_test 0 ⟨[], []⟩ "t" "n" "d" ["a", "b"]
      [("a", 6/10), ("b", 5/10)] "quality_score" 30 100 (1/20) "system"
      = .error msg)
    ∧ (∃ msg, create_test 0 ⟨[], []⟩ "t" "n" "d" ["a", "b"]
      [("a", 1/2), ("c", 1/2)] "quality_score" 30 100 (1/20) "system"
      = .error msg) :=
  ⟨create_test_rejects_invalid 0 ⟨[], []⟩ "t" "n" "d" ["a", "b"]
      [("a", 6/10), ("b", 5/10)] "quality_score" 30 100 (1/20) "system"
      (Or.inl (by
        rw [show ((([("a", (6:ℚ)/10), ("b", 5/10)].map Prod.snd).sum) - 1 : ℚ)
          = 1/10 by norm_num]
        rw [abs_of_pos (by norm_num : (0:ℚ) < 1/10)]
        norm_num)),
   create_test_rejects_invalid 0 ⟨[], []⟩ "t" "n" "d" ["a", "b"]
      [("a", 1/2), ("c", 1/2)] "quality_score" 30 100 (1/20) "system"
      (Or.inr (by decide))⟩

/-- The cumulative-probability walk in `assign_variant`: return the first
variant whose cumulative probability is `≥` the random value. -/
def pickVariant (rv : ℚ) : List (String × ℚ) → ℚ → Option String
  | [], _ => none
  | (variant, probability) :: rest, cum =>
    if rv ≤ cum + probability then some variant
    else pickVariant rv rest (cum + probability)

/-- Embedding of `ABTestManager.assign_variant` (ab_testing.py lines
165–193): `none` for an unknown, inactive, not-yet-started or ended test;
otherwise a deterministic choice from
`md5("{test_id}:{user_id}") % 10000 / 10000` walked through the traffic
split, falling back to the first configured variant. -/
def assign_variant (md5n : String → ℕ) (now : ℚ) (m : ABTestManager)
    (test_id user_id : String) : Option String :=
  (dictLookup test_id m.tests).bind fun test =>
    -- unknown test id: `Option.bind` on `none` returns `none`
    if test.is_active = false ∨ now < test.start_date then none
    else
      let hash_value := md5n (test_id ++ ":" ++ user_id)
      let random_value : ℚ := (hash_value % 10000 : ℕ) / 10000
      let chosen : Option String :=
        match pickVariant random_value test.traffic_split 0 with
        | some v => some v
        | none => test.variants.head?  -- "Fallback to first variant"
      match test.end_date with
      | some ed => if ed < now then none else chosen
      | none => chosen

/-- C4: for an experiment that is active and within its date range at both
call times, `assign_variant` returns the same variant on any two calls: the
result depends only on the experiment configuration and the stable hash of
`"{test_id}:{user_id}"`, not on the call time. -/
theorem assign_variant_deterministic (md5n : String → ℕ) (m : ABTestManager)
    (test_id user_id : String) (t1 t2 : ℚ) (test : ABTestConfig)
    (hlook : dictLookup test_id m.tests = some test)
    (hact : test.is_active = true)
    (h1s : test.start_date ≤ t1) (h2s : test.start_date ≤ t2)
    (h1e : ∀ ed, test.end_date = some ed → t1 ≤ ed)
    (h2e : ∀ ed, test.end_date = some ed → t2 ≤ ed) :
    assign_variant md5n t1 m test_id user_id =
      assign_variant md5n t2 m test_id user_id := by
  unfold assign_variant
  rw [hlook]
  simp only [Option.some_bind]
  have hc1 : ¬(test.is_active = false ∨ t1 < test.start_date) := by
    rw [hact]
    push_neg
    exact ⟨fun h => Bool.noConfusion h, h1s⟩
  have hc2 : ¬(test.is_active = false ∨ t2 < test.start_date) := by
    rw [hact]
    push_neg
    exact ⟨fun h => Bool.noConfusion h, h2s⟩
  rw [if_neg hc1, if_neg hc2]
  cases hed : test.end_date with
  | none => rfl
  | some ed =>
    simp [not_lt.mpr (h1e ed hed), not_lt.mpr (h2e ed hed)]

/-- Closed witness for `assign_variant_deterministic`: an active two-variant
experiment assigns the same variant at times 5 and 6. -/
theorem assign_variant_deterministic_witness :
    assign_variant (fun _ => 1234) 5
      ⟨[("t", ⟨"t", "n", "d", ["a", "b"], [("a", 1/2), ("b", 1/2)], 0, none,
        "quality_score", 100, 1/20, true, "system"⟩)], []⟩ "t" "u"
    = assign_variant (fun _ => 1234) 6
      ⟨[("t", ⟨"t", "n", "d", ["a", "b"], [("a", 1/2), ("b", 1/2)], 0, none,
        "quality_score", 100, 1/20, true, "system"⟩)], []⟩ "t" "u" :=
  assign_variant_deterministic (fun _ => 1234) _ "t" "u" 5 6 _
    (by rfl) (by rfl) (by norm_num) (by norm_num)
    (fun ed h => by cases h) (fun ed h => by cases h)

/-- Embedding of `ABTestManager.record_event` (ab_testing.py lines 195–221):
an unknown test id is logged and dropped; otherwise the event is appended to
the event list.  The variant string is never validated against the
experiment's configured variants. -/
def record_event (now : ℚ) (m : ABTestManager)
    (test_id user_id variant : String) (metrics : List (String × ℚ))
    (metadata : List (String × String)) : ABTestManager :=
  if (dictLookup test_id m.tests).isSome then
    { m with events :=
        m.events ++ [⟨test_id, user_id, variant, now, metrics, metadata⟩] }
  else m

/-- The per-variant metric grouping of `get_test_results` (ab_testing.py
lines 234–239): the `target_metric` values, in order, of this test's events
whose `variant` field equals `v`. -/
def variant_metric_values (events : List ABTestEvent)
    (test_id target v : String) : List ℚ :=
  (events.filter (fun e => e.test_id = test_id)).filterMap
    (fun e => if e.variant = v then dictLookup target e.metrics else none)

/-- C10: for a test id present in the store, `record_event` appends exactly
one event carrying the given variant string — for *every* variant `v`,
including one outside the experiment's configured variant set — and the
analysis grouping then collects that event's target-metric value under `v`'s
own group. -/
theorem record_event_appends_any_variant (now : ℚ) (m : ABTestManager)
    (test_id user_id v : String) (metrics : List (String × ℚ))
    (metadata : List (String × String))
    (hmem : (dictLookup test_id m.tests).isSome) :
    (record_event now m test_id user_id v metrics metadata).events =
      m.events ++ [⟨test_id, user_id, v, now, metrics, metadata⟩]
    ∧ ∀ target x, dictLookup target metrics = some x →
      variant_metric_values
        (record_event now m test_id user_id v metrics metadata).events
        test_id target v
      = variant_metric_values m.events test_id target v ++ [x] := by
  constructor
  · unfold record_event
    rw [if_pos hmem]
  · intro target x hx
    unfold record_event
    rw [if_pos hmem]
    simp only [variant_metric_values, List.filter_append, List.filterMap_append]
    congr 1
    simp [hx]

/-- Closed witness for `record_event_appends_any_variant`: recording an
event with variant `"rogue"` — not among the experiment's variants
`["a", "b"]` — appends it, and the grouping lists its metric under
`"rogue"`. -/
theorem record_event_appends_any_variant_witness :
    (record_event 7
      ⟨[("t", ⟨"t", "n", "d", ["a", "b"], [("a", 1/2), ("b", 1/2)], 0, none,
        "quality_score", 100, 1/20, true, "system"⟩)], []⟩
      "t" "u" "rogue" [("quality_score", 9/10)] []).events =
      [⟨"t", "u", "rogue", 7, [("quality_score", 9/10)], []⟩] :=
  ((record_event_appends_any_variant 7
      ⟨[("t", ⟨"t", "n", "d", ["a", "b"], [("a", 1/2), ("b", 1/2)], 0, none,
        "quality_score", 100, 1/20, true, "system"⟩)], []⟩
      "t" "u" "rogue" [("quality_score", 9/10)] [] (by rfl)).1).trans
    (by simp)

/-! ### Winner determination (`backend/api/ab_testing.py`,
`ABTestManager._determine_winner`, lines 334–379)

`variant_stats` is modelled as the association list of `(variant, mean)` —
`_determine_winner` reads only the `"mean"` field of each per-variant stat
dict.  A pairwise entry of `significance_results` (key `"{a}_vs_{b}"`) is
modelled as a `PairwiseResult`; of its fields `_determine_winner` reads only
`is_significant` (the ANOVA entry, whose key contains `"anova"`, is excluded
by the source's key filter and hence not modelled here).  Python
`max(keys, key=...)` keeps the first maximum (`maxFrom`/`maxByMean`), and the
dict comprehension `{v: mean for v in significant_wins}` deduplicates keys
keeping first occurrences (`firstOccDedup`).  A `KeyError` (a comparison
variant absent from `variant_stats` — impossible in the source, where both
come from the same grouping) is modelled by `Option`-propagation. -/

theorem dictLookup_mem {β : Type} {a : String} {b : β} :
    ∀ {l : List (String × β)}, dictLookup a l = some b → (a, b) ∈ l := by
  intro l
  induction l with
  | nil => intro h; cases h
  | cons p rest ih =>
    obtain ⟨k', v'⟩ := p
    intro h
    by_cases hp : k' = a
    · rw [dictLookup, if_pos hp] at h
      subst hp
      rw [Option.some.injEq] at h
      subst h
      exact List.mem_cons_self _ _
    · rw [dictLookup, if_neg hp] at h
      exact List.mem_cons_of_mem _ (ih h)

theorem mem_dictLookup_of_nodup {β : Type} {a : String} {b : β} :
    ∀ {l : List (String × β)}, (l.map Prod.fst).Nodup → (a, b) ∈ l →
      dictLookup a l = some b := by
  intro l
  induction l with
  | nil => intro _ h; cases h
  | cons p rest ih =>
    obtain ⟨k', v'⟩ := p
    intro hnd hm
    have hnd' : (rest.map Prod.fst).Nodup := (List.nodup_cons.mp (by simpa using hnd)).2
    have hk' : k' ∉ rest.map Prod.fst := (List.nodup_cons.mp (by simpa using hnd)).1
    rcases List.mem_cons.mp hm with h | h
    · rw [Prod.mk.injEq] at h
      rw [dictLookup, if_pos h.1.symm, h.2]
    · have hne : k' ≠ a := by
        intro hc
        subst hc
        exact hk' (List.mem_map.mpr ⟨(k', b), h, rfl⟩)
      rw [dictLookup, if_neg hne]
      exact ih hnd' h

structure PairwiseResult where
  variant_a : String
  variant_b : String
  is_significant : Bool
  deriving Repr, DecidableEq

structure WinnerResult where
  winner : String
  mean_performance : ℚ
  confidence : String
  deriving Repr, DecidableEq

def maxFrom (cur : String × ℚ) : List (String × ℚ) → String × ℚ
  | [] => cur
  | p :: rest => maxFrom (if cur.2 < p.2 then p else cur) rest

def maxByMean : List (String × ℚ) → Option (String × ℚ)
  | [] => none
  | p :: rest => some (maxFrom p rest)

theorem maxFrom_mem : ∀ (l : List (String × ℚ)) (cur : String × ℚ),
    maxFrom cur l = cur ∨ maxFrom cur l ∈ l
  | [], cur => Or.inl rfl
  | p :: rest, cur => by
    rw [maxFrom]
    rcases maxFrom_mem rest (if cur.2 < p.2 then p else cur) with h | h
    · rw [h]
      split_ifs with hc
      · exact Or.inr (List.mem_cons_self _ _)
      · exact Or.inl rfl
    · exact Or.inr (List.mem_cons_of_mem _ h)

theorem maxFrom_le : ∀ (l : List (String × ℚ)) (cur : String × ℚ),
    cur.2 ≤ (maxFrom cur l).2 ∧ ∀ q ∈ l, q.2 ≤ (maxFrom cur l).2
  | [], cur => ⟨le_refl _, fun q hq => absurd hq (List.not_mem_nil q)⟩
  | p :: rest, cur => by
    rw [maxFrom]
    by_cases hc : cur.2 < p.2
    · rw [if_pos hc]
      have ih := maxFrom_le rest p
      refine ⟨le_trans (le_of_lt hc) ih.1, fun q hq => ?_⟩
      rcases List.mem_cons.mp hq with h | h
      · rw [h]; exact ih.1
      · exact ih.2 q h
    · rw [if_neg hc]
      have ih := maxFrom_le rest cur
      refine ⟨ih.1, fun q hq => ?_⟩
      rcases List.mem_cons.mp hq with h | h
      · rw [h]; exact le_trans (not_lt.mp hc) ih.1
      · exact ih.2 q h

theorem maxByMean_spec (l : List (String × ℚ)) (hne : l ≠ []) :
    ∃ p, maxByMean l = some p ∧ p ∈ l ∧ ∀ q ∈ l, q.2 ≤ p.2 := by
  match l, hne with
  | p :: rest, _ =>
    refine ⟨maxFrom p rest, rfl, ?_, ?_⟩
    · rcases maxFrom_mem rest p with h | h
      · rw [h]; exact List.mem_cons_self _ _
      · exact List.mem_cons_of_mem _ h
    · intro q hq
      rcases List.mem_cons.mp hq with h | h
      · rw [h]; exact (maxFrom_le rest p).1
      · exact (maxFrom_le rest p).2 q h

def significant_wins (stats : List (String × ℚ)) (sigs : List PairwiseResult) :
    List String :=
  sigs.filterMap (fun r =>
    if r.is_significant then
      (dictLookup r.variant_a stats).bind fun ma =>
        (dictLookup r.variant_b stats).bind fun mb =>
          some (if mb < ma then r.variant_a else r.variant_b)
    else none)

def firstOccDedupAux (seen : List String) : List String → List String
  | [] => []
  | x :: xs =>
    if x ∈ seen then firstOccDedupAux seen xs
    else x :: firstOccDedupAux (x :: seen) xs

def firstOccDedup (l : List String) : List String := firstOccDedupAux [] l

theorem mem_firstOccDedupAux : ∀ (l seen : List String) (x : String),
    x ∈ firstOccDedupAux seen l ↔ x ∈ l ∧ x ∉ seen
  | [], seen, x => by simp [firstOccDedupAux]
  | y :: ys, seen, x => by
    by_cases hy : y ∈ seen
    · rw [firstOccDedupAux, if_pos hy]
      rw [mem_firstOccDedupAux ys seen x]
      simp only [List.mem_cons]
      constructor
      · rintro ⟨h1, h2⟩
        exact ⟨Or.inr h1, h2⟩
      · rintro ⟨h1 | h1, h2⟩
        · subst h1; exact absurd hy h2
        · exact ⟨h1, h2⟩
    · rw [firstOccDedupAux, if_neg hy]
      rw [List.mem_cons, mem_firstOccDedupAux ys (y :: seen) x]
      simp only [List.mem_cons]
      constructor
      · rintro (h | ⟨h1, h2⟩)
        · subst h; exact ⟨Or.inl rfl, hy⟩
        · push_neg at h2
          exact ⟨Or.inr h1, h2.2⟩
      · rintro ⟨h1 | h1, h2⟩
        · subst h1; exact Or.inl rfl
        · by_cases hxy : x = y
          · subst hxy; exact Or.inl rfl
          · exact Or.inr ⟨h1, by simp [hxy, h2]⟩

theorem mem_firstOccDedup (l : List String) (x : String) :
    x ∈ firstOccDedup l ↔ x ∈ l := by
  rw [firstOccDedup, mem_firstOccDedupAux]
  simp

def determine_winner (stats : List (String × ℚ)) (sigs : List PairwiseResult) :
    Option WinnerResult :=
  (maxByMean stats).bind fun best =>
    if best.1 ∈ significant_wins stats sigs then some ⟨best.1, best.2, "high"⟩
    else if significant_wins stats sigs ≠ [] then
      (maxByMean ((firstOccDedup (significant_wins stats sigs)).filterMap
          (fun v => (dictLookup v stats).map (fun mv => (v, mv))))).map
        (fun w => ⟨w.1, w.2, "medium"⟩)
    else some ⟨best.1, best.2, "low"⟩

def isHighestMean (stats : List (String × ℚ)) (v : String) (mv : ℚ) : Prop :=
  (v, mv) ∈ stats ∧ ∀ q ∈ stats, q.2 ≤ mv

def isSigWinner (stats : List (String × ℚ)) (sigs : List PairwiseResult)
    (v : String) : Prop :=
  ∃ r ∈ sigs, r.is_significant = true ∧ ∃ ma mb,
    dictLookup r.variant_a stats = some ma ∧
    dictLookup r.variant_b stats = some mb ∧
    ((v = r.variant_a ∧ mb < ma) ∨ (v = r.variant_b ∧ ma < mb))

theorem mem_significant_wins_iff (stats : List (String × ℚ))
    (sigs : List PairwiseResult)
    (hab : ∀ r ∈ sigs, r.variant_a ≠ r.variant_b ∧
      (dictLookup r.variant_a stats).isSome ∧
      (dictLookup r.variant_b stats).isSome)
    (hdist : ∀ p ∈ stats, ∀ q ∈ stats, p.1 ≠ q.1 → p.2 ≠ q.2)
    (v : String) :
    v ∈ significant_wins stats sigs ↔ isSigWinner stats sigs v := by
  rw [significant_wins, List.mem_filterMap]
  constructor
  · rintro ⟨r, hr, hv⟩
    by_cases hsig : r.is_significant
    · rw [if_pos hsig] at hv
      obtain ⟨hne, ha, hb⟩ := hab r hr
      obtain ⟨ma, hma⟩ := Option.isSome_iff_exists.mp ha
      obtain ⟨mb, hmb⟩ := Option.isSome_iff_exists.mp hb
      rw [hma, hmb] at hv
      simp only [Option.some_bind] at hv
      by_cases hlt : mb < ma
      · rw [if_pos hlt, Option.some.injEq] at hv
        exact ⟨r, hr, hsig, ma, mb, hma, hmb, Or.inl ⟨hv.symm, hlt⟩⟩
      · rw [if_neg hlt, Option.some.injEq] at hv
        have hmane : ma ≠ mb :=
          hdist _ (dictLookup_mem hma) _ (dictLookup_mem hmb) hne
        have hmalt : ma < mb := lt_of_le_of_ne (not_lt.mp hlt) hmane
        exact ⟨r, hr, hsig, ma, mb, hma, hmb, Or.inr ⟨hv.symm, hmalt⟩⟩
    · rw [if_neg hsig] at hv
      cases hv
  · rintro ⟨r, hr, hsig, ma, mb, hma, hmb, hcase⟩
    refine ⟨r, hr, ?_⟩
    rw [if_pos hsig, hma, hmb]
    simp only [Option.some_bind]
    rcases hcase with ⟨hv, hlt⟩ | ⟨hv, hlt⟩
    · rw [if_pos hlt, hv]
    · rw [if_neg (not_lt.mpr (le_of_lt hlt)), hv]

theorem highest_mean_unique (stats : List (String × ℚ))
    (hdist : ∀ p ∈ stats, ∀ q ∈ stats, p.1 ≠ q.1 → p.2 ≠ q.2)
    {bv : String} {bm : ℚ} (hbest : isHighestMean stats bv bm)
    {p : String × ℚ} (hp : p ∈ stats) (hmax : ∀ q ∈ stats, q.2 ≤ p.2) :
    p = (bv, bm) := by
  have h1 : p.2 ≤ bm := hbest.2 p hp
  have h2 : bm ≤ p.2 := hmax (bv, bm) hbest.1
  have heq : p.2 = bm := le_antisymm h1 h2
  by_cases hv : p.1 = bv
  · exact Prod.ext hv heq
  · exact absurd heq (hdist p hp (bv, bm) hbest.1 hv)

/-- C3: with non-empty per-variant statistics whose means are pairwise
distinct and pairwise results over variants present in the statistics,
`_determine_winner` picks the variant with the highest mean; confidence is
"high" when that variant is the higher-mean side of some statistically
significant pairwise comparison; otherwise, if any variant is the
higher-mean side of a significant comparison, the highest-mean variant among
those is reported with confidence "medium"; otherwise the highest-mean
variant is reported with confidence "low". -/
theorem determine_winner_spec (stats : List (String × ℚ))
    (sigs : List PairwiseResult) (bv : String) (bm : ℚ)
    (hne : stats ≠ [])
    (hab : ∀ r ∈ sigs, r.variant_a ≠ r.variant_b ∧
      (dictLookup r.variant_a stats).isSome ∧
      (dictLookup r.variant_b stats).isSome)
    (hdist : ∀ p ∈ stats, ∀ q ∈ stats, p.1 ≠ q.1 → p.2 ≠ q.2)
    (hbest : isHighestMean stats bv bm) :
    (isSigWinner stats sigs bv →
      determine_winner stats sigs = some ⟨bv, bm, "high"⟩)
    ∧ (¬isSigWinner stats sigs bv → (∃ w, isSigWinner stats sigs w) →
      ∃ w wm, determine_winner stats sigs = some ⟨w, wm, "medium"⟩ ∧
        isSigWinner stats sigs w ∧ dictLookup w stats = some wm ∧
        ∀ u um, isSigWinner stats sigs u → dictLookup u stats = some um →
          um ≤ wm)
    ∧ ((∀ w, ¬isSigWinner stats sigs w) →
      determine_winner stats sigs = some ⟨bv, bm, "low"⟩) := by
  obtain ⟨p, hmb, hpmem, hpmax⟩ := maxByMean_spec stats hne
  have hpeq : p = (bv, bm) := highest_mean_unique stats hdist hbest hpmem hpmax
  rw [hpeq] at hmb
  have hwin := mem_significant_wins_iff stats sigs hab hdist
  have hdw : determine_winner stats sigs =
      (if bv ∈ significant_wins stats sigs then some ⟨bv, bm, "high"⟩
       else if significant_wins stats sigs ≠ [] then
         (maxByMean ((firstOccDedup (significant_wins stats sigs)).filterMap
             (fun v => (dictLookup v stats).map (fun mv => (v, mv))))).map
           (fun w => ⟨w.1, w.2, "medium"⟩)
       else some ⟨bv, bm, "low"⟩) := by
    rw [determine_winner, hmb]
    rfl
  refine ⟨?_, ?_, ?_⟩
  · intro hsw
    rw [hdw, if_pos ((hwin bv).mpr hsw)]
  · intro hnsw hex
    have hbvnot : bv ∉ significant_wins stats sigs :=
      fun hc => hnsw ((hwin bv).mp hc)
    obtain ⟨w0, hw0⟩ := hex
    have hw0mem : w0 ∈ significant_wins stats sigs := (hwin w0).mpr hw0
    have hwne : significant_wins stats sigs ≠ [] := List.ne_nil_of_mem hw0mem
    rw [hdw, if_neg hbvnot, if_pos hwne]
    have hWMmem : ∀ q : String × ℚ,
        q ∈ (firstOccDedup (significant_wins stats sigs)).filterMap
            (fun v => (dictLookup v stats).map (fun mv => (v, mv))) ↔
          q.1 ∈ significant_wins stats sigs ∧
          dictLookup q.1 stats = some q.2 := by
      intro q
      rw [List.mem_filterMap]
      constructor
      · rintro ⟨v, hv, hq⟩
        rw [Option.map_eq_some'] at hq
        obtain ⟨mv, hmv, hq⟩ := hq
        rw [← hq]
        exact ⟨(mem_firstOccDedup _ v).mp hv, hmv⟩
      · rintro ⟨h1, h2⟩
        exact ⟨q.1, (mem_firstOccDedup _ q.1).mpr h1, by rw [h2]; simp⟩
    have hlw0 : ∃ m0, dictLookup w0 stats = some m0 := by
      obtain ⟨r, hr, hsig, ma, mb, hma, hmb2, hcase⟩ := hw0
      rcases hcase with ⟨hv, _⟩ | ⟨hv, _⟩
      · exact ⟨ma, by rw [hv, hma]⟩
      · exact ⟨mb, by rw [hv, hmb2]⟩
    obtain ⟨m0, hm0⟩ := hlw0
    have hWMne : (firstOccDedup (significant_wins stats sigs)).filterMap
        (fun v => (dictLookup v stats).map (fun mv => (v, mv))) ≠ [] :=
      List.ne_nil_of_mem ((hWMmem (w0, m0)).mpr ⟨hw0mem, hm0⟩)
    obtain ⟨pw, hmw, hpwmem, hpwmax⟩ := maxByMean_spec _ hWMne
    rw [hmw]
    refine ⟨pw.1, pw.2, rfl, ?_, ?_, ?_⟩
    · exact (hwin pw.1).mp ((hWMmem pw).mp hpwmem).1
    · exact ((hWMmem pw).mp hpwmem).2
    · intro u um hu hum
      exact hpwmax (u, um) ((hWMmem (u, um)).mpr ⟨(hwin u).mpr hu, hum⟩)
  · intro hnone
    have hnil : significant_wins stats sigs = [] :=
      List.eq_nil_iff_forall_not_mem.mpr
        (fun x hx => hnone x ((hwin x).mp hx))
    rw [hdw, hnil]
    simp

/-- Closed witness for `determine_winner_spec`: means 1 vs 2 with a
significant pairwise comparison select `variant_a` with confidence high. -/
theorem determine_winner_spec_witness :
    determine_winner [("control", 1), ("variant_a", 2)]
      [⟨"control", "variant_a", true⟩]
      = some ⟨"variant_a", 2, "high"⟩ :=
  (determine_winner_spec [("control", 1), ("variant_a", 2)]
    [⟨"control", "variant_a", true⟩] "variant_a" 2
    (by decide)
    (by decide)
    (by decide)
    (by constructor
        · decide
        · intro q hq
          fin_cases hq <;> norm_num)).1
    ⟨⟨"control", "variant_a", true⟩, by decide, rfl, 1, 2, rfl, rfl,
      Or.inr ⟨rfl, by norm_num⟩⟩

/-! ### Semantic cache (`backend/api/semantic_cache.py`)

`SemanticCache.entries : Dict[str, SemanticCacheEntry]` keyed by
`cache_key = md5(f"{prompt}:{response}")`, modelled as a list in insertion
order.  `md5s` abstracts MD5 hex digests and `embedf` the embedder
(`SemanticEmbedder.embed`, a deterministic function of the text for a fixed
fitted state); `simf` abstracts sklearn's `cosine_similarity` — cosine of a
nonzero vector with itself is `1`, which instantiates the `simf q q = 1`
hypothesis of the `get`-after-`put` theorem.  Python's blank test
`if not prompt.strip()` is modelled by `isBlank` (empty or all-whitespace).
Python `sorted` is stable, as is `List.mergeSort`.  The periodic embedder
re-fit and snapshot save at the end of `put` do not change the entry map and
are not modelled. -/

structure SemanticCacheEntry where
  cache_key : String
  content_hash : String
  prompt_text : String
  response_text : String
  embedding : List ℚ
  metadata : List (String × String)
  created_at : ℚ
  last_accessed : ℚ
  access_count : ℕ
  quality_score : ℚ
  deriving Repr, DecidableEq

structure SemanticCache where
  max_entries : ℕ
  similarity_threshold : ℚ
  ttl : ℚ
  entries : List SemanticCacheEntry
  deriving Repr, DecidableEq

def isBlank (s : String) : Bool := s.toList.all (fun ch => ch.isWhitespace)

/-- Embedding of `SemanticCache._cleanup_expired` (lines 182–196): drop
entries with `now - created_at > ttl`. -/
def cleanup_expired (now : ℚ) (c : SemanticCache) : SemanticCache :=
  { c with entries := c.entries.filter (fun e => now - e.created_at ≤ c.ttl) }

/-- Embedding of `SemanticCache._evict_lru` (semantic_cache.py lines
198–214): when over capacity, sort by `last_accessed` ascending and delete
the first `len - max_entries` keys. -/
def evict_lru (c : SemanticCache) : SemanticCache :=
  if c.entries.length ≤ c.max_entries then c
  else
    let sorted := c.entries.mergeSort
      (fun a b => a.last_accessed ≤ b.last_accessed)
    let removedKeys := (sorted.take (c.entries.length - c.max_entries)).map
      (fun e => e.cache_key)
    { c with entries := c.entries.filter (fun e => e.cache_key ∉ removedKeys) }

/-- Embedding of `SemanticCache.put` (semantic_cache.py lines 263–314):
no-op on blank prompt/response, duplicate `(prompt, response)` hash, or
empty embedding; otherwise insert a fresh entry, expire by TTL, then evict
LRU entries beyond capacity. -/
def semantic_put (embedf : String → List ℚ) (md5s : String → String)
    (now : ℚ) (c : SemanticCache) (prompt response : String)
    (quality_score : ℚ := 1/2) (metadata : List (String × String) := []) :
    SemanticCache :=
  if isBlank prompt || isBlank response then c
  else
    let cache_key := md5s (prompt ++ ":" ++ response)
    if c.entries.any (fun e => e.cache_key = cache_key) then c
    else
      let embedding := embedf prompt
      if embedding = [] then c
      else
        let entry : SemanticCacheEntry :=
          ⟨cache_key, md5s response, prompt, response, embedding, metadata,
            now, now, 0, quality_score⟩
        evict_lru (cleanup_expired now
          { c with entries := c.entries ++ [entry] })

theorem evict_lru_capacity (c : SemanticCache) :
    (evict_lru c).entries.length ≤ c.max_entries := by
  unfold evict_lru
  split_ifs with h
  · exact h
  · simp only []
    set sorted := c.entries.mergeSort
      (fun a b => decide (a.last_accessed ≤ b.last_accessed)) with hsorted
    set k := c.entries.length - c.max_entries with hk
    set removedKeys := (sorted.take k).map (fun e => e.cache_key) with hrk
    have hperm : List.Perm sorted c.entries := List.mergeSort_perm c.entries _
    have hcount : ∀ e ∈ sorted.take k,
        (fun e : SemanticCacheEntry => decide (e.cache_key ∈ removedKeys)) e
          = true := by
      intro e he
      simp only [decide_eq_true_eq, hrk]
      exact List.mem_map.mpr ⟨e, he, rfl⟩
    have hklen : k ≤ sorted.length := by
      rw [hsorted, List.length_mergeSort]
      omega
    have hcountp : k ≤ c.entries.countP
        (fun e => decide (e.cache_key ∈ removedKeys)) := by
      have h1 : c.entries.countP (fun e => decide (e.cache_key ∈ removedKeys)) =
          sorted.countP (fun e => decide (e.cache_key ∈ removedKeys)) :=
        (hperm.countP_eq _).symm
      rw [h1, ← List.take_append_drop k sorted, List.countP_append]
      have h2 : (sorted.take k).countP
          (fun e => decide (e.cache_key ∈ removedKeys)) =
            (sorted.take k).length :=
        List.countP_eq_length.mpr hcount
      have h4 : (sorted.take k).length = k := by
        rw [List.length_take]
        omega
      omega
    have hlen := List.length_eq_length_filter_add (l := c.entries)
      (fun e => decide (e.cache_key ∈ removedKeys))
    have hcpf : c.entries.countP (fun e => decide (e.cache_key ∈ removedKeys)) =
        (c.entries.filter (fun e => decide (e.cache_key ∈ removedKeys))).length :=
      List.countP_eq_length_filter _ _
    have hkeq : (c.entries.filter (fun e => e.cache_key ∉ removedKeys)) =
        (c.entries.filter
          (fun e => !(decide (e.cache_key ∈ removedKeys)))) := by
      simp only [decide_not]
    rw [hkeq]
    omega

theorem evict_lru_max (c : SemanticCache) :
    (evict_lru c).max_entries = c.max_entries := by
  unfold evict_lru
  split_ifs <;> rfl

theorem evict_lru_lru (c : SemanticCache)
    (hnd : (c.entries.map (fun e => e.cache_key)).Nodup) :
    (c.max_entries < c.entries.length →
      (evict_lru c).entries.length = c.max_entries)
    ∧ (∀ e ∈ c.entries, e ∉ (evict_lru c).entries →
       ∀ e2 ∈ (evict_lru c).entries, e.last_accessed ≤ e2.last_accessed) := by
  unfold evict_lru
  split_ifs with h
  · refine ⟨fun hlt => absurd h (by omega), ?_⟩
    intro e he hnot e2 _
    exact absurd he hnot
  · simp only []
    set sorted := c.entries.mergeSort
      (fun a b => decide (a.last_accessed ≤ b.last_accessed)) with hsorted
    set k := c.entries.length - c.max_entries with hk
    set removedKeys := (sorted.take k).map (fun e => e.cache_key) with hrk
    have hperm : List.Perm sorted c.entries := List.mergeSort_perm c.entries _
    have hndsorted : (sorted.map (fun e => e.cache_key)).Nodup :=
      (List.Perm.nodup_iff (hperm.map _)).mpr hnd
    have hinj := List.inj_on_of_nodup_map hndsorted
    have hsortnd : sorted.Nodup := List.Nodup.of_map _ hndsorted
    have hsplit : sorted.take k ++ sorted.drop k = sorted :=
      List.take_append_drop k sorted
    have hchar : ∀ e ∈ sorted, (e.cache_key ∈ removedKeys ↔ e ∈ sorted.take k) := by
      intro e hes
      constructor
      · intro hkey
        rw [hrk, List.mem_map] at hkey
        obtain ⟨x, hx, hxe⟩ := hkey
        have hxs : x ∈ sorted := List.take_subset k sorted hx
        have := hinj hxs hes hxe
        rwa [← this]
      · intro he
        rw [hrk, List.mem_map]
        exact ⟨e, he, rfl⟩
    have hdisj : ∀ x ∈ sorted.take k, x ∉ sorted.drop k := by
      have hnd2 : (sorted.take k ++ sorted.drop k).Nodup := by
        rw [hsplit]; exact hsortnd
      intro x hx
      exact (List.nodup_append.mp hnd2).2.2 hx
    have hsort : sorted.Pairwise
        (fun a b => decide (a.last_accessed ≤ b.last_accessed) = true) := by
      rw [hsorted]
      exact List.sorted_mergeSort
        (fun a b c hab hbc => by
          simp only [decide_eq_true_eq] at *
          exact le_trans hab hbc)
        (fun a b => by
          simp only [Bool.or_eq_true, decide_eq_true_eq]
          exact le_total _ _)
        c.entries
    have htd : ∀ x ∈ sorted.take k, ∀ y ∈ sorted.drop k,
        x.last_accessed ≤ y.last_accessed := by
      rw [← hsplit] at hsort
      intro x hx y hy
      have := (List.pairwise_append.mp hsort).2.2 x hx y hy
      simpa using this
    have hmemfil : ∀ e2, e2 ∈ c.entries.filter
        (fun e => e.cache_key ∉ removedKeys) ↔
        e2 ∈ c.entries ∧ e2.cache_key ∉ removedKeys := by
      intro e2
      rw [List.mem_filter]
      simp
    constructor
    · intro _
      -- exact length: the filter removes exactly k entries
      have hcount : ∀ e ∈ sorted.take k,
          (fun e : SemanticCacheEntry => decide (e.cache_key ∈ removedKeys)) e
            = true := by
        intro e he
        simp only [decide_eq_true_eq, hrk]
        exact List.mem_map.mpr ⟨e, he, rfl⟩
      have hklen : k ≤ sorted.length := by
        rw [hsorted, List.length_mergeSort]
        omega
      have hdropzero : (sorted.drop k).countP
          (fun e => decide (e.cache_key ∈ removedKeys)) = 0 := by
        rw [List.countP_eq_zero]
        intro e he
        simp only [decide_eq_true_eq]
        intro hkey
        have hes : e ∈ sorted := List.drop_subset k sorted he
        exact hdisj e ((hchar e hes).mp hkey) he
      have hcountp : c.entries.countP
          (fun e => decide (e.cache_key ∈ removedKeys)) = k := by
        have h1 : c.entries.countP (fun e => decide (e.cache_key ∈ removedKeys)) =
            sorted.countP (fun e => decide (e.cache_key ∈ removedKeys)) :=
          (hperm.countP_eq _).symm
        rw [h1, ← hsplit, List.countP_append]
        have h2 : (sorted.take k).countP
            (fun e => decide (e.cache_key ∈ removedKeys)) =
              (sorted.take k).length :=
          List.countP_eq_length.mpr hcount
        have h4 : (sorted.take k).length = k := by
          rw [List.length_take]
          omega
        omega
      have hlen := List.length_eq_length_filter_add (l := c.entries)
        (fun e => decide (e.cache_key ∈ removedKeys))
      have hcpf : c.entries.countP (fun e => decide (e.cache_key ∈ removedKeys)) =
          (c.entries.filter
            (fun e => decide (e.cache_key ∈ removedKeys))).length :=
        List.countP_eq_length_filter _ _
      have hkeq : (c.entries.filter (fun e => e.cache_key ∉ removedKeys)) =
          (c.entries.filter
            (fun e => !(decide (e.cache_key ∈ removedKeys)))) := by
        simp only [decide_not]
      rw [hkeq]
      omega
    · intro e he hnot e2 he2
      have hkey : e.cache_key ∈ removedKeys := by
        by_contra hc
        exact hnot ((hmemfil e).mpr ⟨he, hc⟩)
      have hes : e ∈ sorted := hperm.mem_iff.mpr he
      have hetake : e ∈ sorted.take k := (hchar e hes).mp hkey
      obtain ⟨he2mem, he2key⟩ := (hmemfil e2).mp he2
      have he2s : e2 ∈ sorted := hperm.mem_iff.mpr he2mem
      have he2drop : e2 ∈ sorted.drop k := by
        rcases (List.mem_append.mp (hsplit ▸ he2s)) with h2 | h2
        · exact absurd ((hchar e2 he2s).mpr h2) he2key
        · exact h2
      exact htd e hetake e2 he2drop

theorem semantic_put_max (embedf : String → List ℚ) (md5s : String → String)
    (now : ℚ) (c : SemanticCache) (prompt response : String)
    (quality_score : ℚ) (metadata : List (String × String)) :
    (semantic_put embedf md5s now c prompt response quality_score
      metadata).max_entries = c.max_entries := by
  unfold semantic_put
  dsimp only
  split_ifs
  · rfl
  · rfl
  · rfl
  · rw [evict_lru_max]
    rfl

theorem semantic_put_capacity (embedf : String → List ℚ)
    (md5s : String → String) (now : ℚ) (c : SemanticCache)
    (prompt response : String) (quality_score : ℚ)
    (metadata : List (String × String))
    (hcap : c.entries.length ≤ c.max_entries) :
    (semantic_put embedf md5s now c prompt response quality_score
      metadata).entries.length ≤ c.max_entries := by
  unfold semantic_put
  dsimp only
  split_ifs
  · exact hcap
  · exact hcap
  · exact hcap
  · exact evict_lru_capacity _

structure PutInput where
  now : ℚ
  prompt : String
  response : String
  quality_score : ℚ
  metadata : List (String × String)
  deriving Repr, DecidableEq

/-- A sequence of `put` calls, left to right. -/
def putSeq (embedf : String → List ℚ) (md5s : String → String)
    (c : SemanticCache) (inputs : List PutInput) : SemanticCache :=
  inputs.foldl (fun acc i =>
    semantic_put embedf md5s i.now acc i.prompt i.response i.quality_score
      i.metadata) c

theorem putSeq_capacity (embedf : String → List ℚ) (md5s : String → String) :
    ∀ (inputs : List PutInput) (c : SemanticCache),
      c.entries.length ≤ c.max_entries →
      (putSeq embedf md5s c inputs).entries.length ≤
        (putSeq embedf md5s c inputs).max_entries ∧
      (putSeq embedf md5s c inputs).max_entries = c.max_entries
  | [], c, hcap => ⟨hcap, rfl⟩
  | i :: rest, c, hcap => by
    have hstep := semantic_put_capacity embedf md5s i.now c i.prompt i.response
      i.quality_score i.metadata hcap
    have hmax := semantic_put_max embedf md5s i.now c i.prompt i.response
      i.quality_score i.metadata
    have ih := putSeq_capacity embedf md5s rest
      (semantic_put embedf md5s i.now c i.prompt i.response i.quality_score
        i.metadata) (by rw [hmax]; exact hstep)
    refine ⟨ih.1, ?_⟩
    rw [putSeq] at *
    rw [List.foldl_cons]
    rw [ih.2, hmax]

/-- C7: after any sequence of `put` calls starting within capacity the
entry count never exceeds `max_entries`; and whenever `_evict_lru` removes
entries (which it does exactly down to capacity, given the dict's distinct
keys) every removed entry's `last_accessed` is at most that of every kept
entry — the least-recently-accessed entries are removed first. -/
theorem semantic_cache_capacity_lru (embedf : String → List ℚ)
    (md5s : String → String) :
    (∀ (inputs : List PutInput) (c : SemanticCache),
      c.entries.length ≤ c.max_entries →
      (putSeq embedf md5s c inputs).entries.length ≤
        (putSeq embedf md5s c inputs).max_entries)
    ∧ ∀ c : SemanticCache,
      (c.entries.map (fun e => e.cache_key)).Nodup →
      (evict_lru c).entries.length ≤ c.max_entries
      ∧ (c.max_entries < c.entries.length →
          (evict_lru c).entries.length = c.max_entries)
      ∧ (∀ e ∈ c.entries, e ∉ (evict_lru c).entries →
          ∀ e2 ∈ (evict_lru c).entries, e.last_accessed ≤ e2.last_accessed) :=
  ⟨fun inputs c hcap => (putSeq_capacity embedf md5s inputs c hcap).1,
   fun c hnd =>
    ⟨evict_lru_capacity c, (evict_lru_lru c hnd).1, (evict_lru_lru c hnd).2⟩⟩

/-- Closed witness for `semantic_cache_capacity_lru`: two puts into a
capacity-1 cache stay within capacity, and evicting a 2-entry capacity-1
cache keeps one entry. -/
theorem semantic_cache_capacity_lru_witness :
    (putSeq (fun _ => [1]) (fun s => s) ⟨1, 17/20, 86400, []⟩
      [⟨0, "p", "r", 1/2, []⟩, ⟨1, "q", "s", 1/2, []⟩]).entries.length ≤
      (putSeq (fun _ => [1]) (fun s => s) ⟨1, 17/20, 86400, []⟩
        [⟨0, "p", "r", 1/2, []⟩, ⟨1, "q", "s", 1/2, []⟩]).max_entries
    ∧ (evict_lru ⟨1, 17/20, 86400,
        [⟨"k1", "h", "p", "r", [1], [], 0, 5, 0, 1/2⟩,
         ⟨"k2", "h", "q", "s", [1], [], 0, 3, 0, 1/2⟩]⟩).entries.length ≤ 1 :=
  ⟨((semantic_cache_capacity_lru (fun _ => [1]) (fun s => s)).1
      [⟨0, "p", "r", 1/2, []⟩, ⟨1, "q", "s", 1/2, []⟩]
      ⟨1, 17/20, 86400, []⟩ (by decide)),
   ((semantic_cache_capacity_lru (fun _ => [1]) (fun s => s)).2
      ⟨1, 17/20, 86400,
        [⟨"k1", "h", "p", "r", [1], [], 0, 5, 0, 1/2⟩,
         ⟨"k2", "h", "q", "s", [1], [], 0, 3, 0, 1/2⟩]⟩ (by decide)).1⟩

/-- The metadata bonus of `SemanticCache.get`: fraction of common metadata
keys with equal values, scaled by 0.1; zero when either side has no
metadata. -/
def metadata_bonus (metadata : Option (List (String × String)))
    (emeta : List (String × String)) : ℚ :=
  match metadata with
  | none => 0
  | some md =>
    if md ≠ [] ∧ emeta ≠ [] then
      let common := (firstOccDedup (md.map Prod.fst)).filter
        (fun k => (emeta.map Prod.fst).contains k)
      if common ≠ [] then
        ((common.filter (fun k => dictLookup k md = dictLookup k emeta)).length :
          ℚ) / common.length * (1/10)
      else 0
    else 0

def totalScore (simf : List ℚ → List ℚ → ℚ) (q : List ℚ)
    (metadata : Option (List (String × String))) (e : SemanticCacheEntry) : ℚ :=
  simf q e.embedding + metadata_bonus metadata e.metadata

def scanStep (threshold : ℚ) (score : SemanticCacheEntry → ℚ)
    (acc : Option SemanticCacheEntry × ℚ) (e : SemanticCacheEntry) :
    Option SemanticCacheEntry × ℚ :=
  if acc.2 < score e ∧ threshold ≤ score e then (some e, score e) else acc

/-- The best-match scan of `SemanticCache.get`: fold with
`best_match = None, best_similarity = 0.0`, updating on
`total > best and total ≥ threshold`. -/
def findBest (threshold : ℚ) (score : SemanticCacheEntry → ℚ)
    (entries : List SemanticCacheEntry) : Option SemanticCacheEntry × ℚ :=
  entries.foldl (scanStep threshold score) (none, 0)

/-- Embedding of `SemanticCache.get` (semantic_cache.py lines 216–261):
after cleanup, linearly scan entries for the best
`similarity + metadata bonus` at or above the threshold; on a hit, update
the matched entry's access statistics and return its response text. -/
def semantic_get (embedf : String → List ℚ) (simf : List ℚ → List ℚ → ℚ)
    (now : ℚ) (c : SemanticCache) (prompt : String)
    (metadata : Option (List (String × String)) := none) :
    Option String × SemanticCache :=
  if isBlank prompt then (none, c)
  else
    let c1 := cleanup_expired now c
    let q := embedf prompt
    if q = [] then (none, c1)
    else
      match findBest c.similarity_threshold (totalScore simf q metadata)
          c1.entries with
      | (some best, _) =>
        (some best.response_text,
          { c1 with entries := c1.entries.map (fun e =>
              if e.cache_key = best.cache_key then
                { e with
                  last_accessed := now
                  access_count := e.access_count + 1 }
              else e) })
      | (none, _) => (none, c1)

theorem findBest_cases (threshold : ℚ) (score : SemanticCacheEntry → ℚ) :
    ∀ (entries : List SemanticCacheEntry) (acc : Option SemanticCacheEntry × ℚ),
      entries.foldl (scanStep threshold score) acc = acc ∨
      ∃ b ∈ entries, entries.foldl (scanStep threshold score) acc =
        (some b, score b) ∧ threshold ≤ score b
  | [], acc => Or.inl rfl
  | e :: rest, acc => by
    rw [List.foldl_cons]
    rcases findBest_cases threshold score rest (scanStep threshold score acc e)
      with h | h
    · rw [h]
      unfold scanStep
      split_ifs with hcond
      · exact Or.inr ⟨e, List.mem_cons_self _ _, rfl, hcond.2⟩
      · exact Or.inl rfl
    · obtain ⟨b, hb, heq, hth⟩ := h
      exact Or.inr ⟨b, List.mem_cons_of_mem _ hb, heq, hth⟩

theorem findBest_mono (threshold : ℚ) (score : SemanticCacheEntry → ℚ) :
    ∀ (entries : List SemanticCacheEntry) (acc : Option SemanticCacheEntry × ℚ),
      acc.2 ≤ (entries.foldl (scanStep threshold score) acc).2
  | [], _ => le_refl _
  | e :: rest, acc => by
    rw [List.foldl_cons]
    refine le_trans ?_ (findBest_mono threshold score rest _)
    unfold scanStep
    split_ifs with hcond
    · exact le_of_lt hcond.1
    · exact le_refl _

theorem findBest_reaches (threshold : ℚ) (score : SemanticCacheEntry → ℚ) :
    ∀ (entries : List SemanticCacheEntry) (acc : Option SemanticCacheEntry × ℚ),
      ∀ e0 ∈ entries, acc.2 < score e0 → threshold ≤ score e0 →
        score e0 ≤ (entries.foldl (scanStep threshold score) acc).2
  | [], _, e0, he0, _, _ => absurd he0 (List.not_mem_nil e0)
  | e :: rest, acc, e0, he0, hlt, hth => by
    rw [List.foldl_cons]
    rcases List.mem_cons.mp he0 with heq | hmem
    · subst heq
      have hacc : (scanStep threshold score acc e0).2 = score e0 := by
        unfold scanStep
        rw [if_pos ⟨hlt, hth⟩]
      calc score e0 = (scanStep threshold score acc e0).2 := hacc.symm
        _ ≤ _ := findBest_mono threshold score rest _
    · by_cases h2 : (scanStep threshold score acc e).2 < score e0
      · exact findBest_reaches threshold score rest _ e0 hmem h2 hth
      · exact le_trans (not_lt.mp h2) (findBest_mono threshold score rest _)

theorem findBest_spec (threshold : ℚ) (score : SemanticCacheEntry → ℚ)
    (entries : List SemanticCacheEntry) :
    findBest threshold score entries = (none, 0) ∨
    ∃ b ∈ entries, findBest threshold score entries = (some b, score b) ∧
      threshold ≤ score b :=
  findBest_cases threshold score entries (none, 0)

theorem findBest_ge (threshold : ℚ) (score : SemanticCacheEntry → ℚ)
    (entries : List SemanticCacheEntry) (e0 : SemanticCacheEntry)
    (he0 : e0 ∈ entries) (h1 : 0 < score e0) (h2 : threshold ≤ score e0) :
    score e0 ≤ (findBest threshold score entries).2 :=
  findBest_reaches threshold score entries (none, 0) e0 he0 h1 h2

/-- C8: for a non-blank prompt and response, a fresh hash key, a nonzero
embedding and room in the cache, a `get` of the identical prompt after
`put(prompt, response)` and before the entry's TTL expires returns the
response of an entry scoring at least as high as the inserted entry, whose
similarity on the identical prompt is exactly 1 (≥ any threshold ≤ 1): the
result is `response` itself or the response of a pre-existing entry with
similarity ≥ 1. -/
theorem semantic_get_after_put (embedf : String → List ℚ)
    (simf : List ℚ → List ℚ → ℚ) (md5s : String → String)
    (c : SemanticCache) (prompt response : String) (quality_score : ℚ)
    (metadata : List (String × String)) (t_put t_get : ℚ)
    (hp : isBlank prompt = false) (hr : isBlank response = false)
    (hfresh : ∀ e ∈ c.entries, ¬e.cache_key = md5s (prompt ++ ":" ++ response))
    (hemb : ¬embedf prompt = [])
    (hroom : c.entries.length < c.max_entries)
    (hord : t_put ≤ t_get) (httl : t_get - t_put ≤ c.ttl)
    (hsim : simf (embedf prompt) (embedf prompt) = 1)
    (hth : c.similarity_threshold ≤ 1) :
    ∃ e, (semantic_get embedf simf t_get
        (semantic_put embedf md5s t_put c prompt response quality_score
          metadata) prompt none).1 = some e.response_text ∧
      1 ≤ simf (embedf prompt) e.embedding ∧
      (e.response_text = response ∨ e ∈ c.entries) := by
  have httl0 : (0 : ℚ) ≤ c.ttl := by linarith
  set ours : SemanticCacheEntry :=
    ⟨md5s (prompt ++ ":" ++ response), md5s response, prompt, response,
      embedf prompt, metadata, t_put, t_put, 0, quality_score⟩ with hours
  set s' := semantic_put embedf md5s t_put c prompt response quality_score
    metadata with hsdef
  have hany : ¬((c.entries.any
      fun e => e.cache_key = md5s (prompt ++ ":" ++ response)) = true) := by
    simp only [List.any_eq_true, decide_eq_true_eq]
    push_neg
    exact hfresh
  have hput : s' = evict_lru (cleanup_expired t_put
      { c with entries := c.entries ++ [ours] }) := by
    rw [hsdef]
    unfold semantic_put
    dsimp only
    rw [if_neg (by simp [hp, hr]), if_neg hany, if_neg hemb]
  have hstep1 : (cleanup_expired t_put
      { c with entries := c.entries ++ [ours] }).entries
      = c.entries.filter (fun e => t_put - e.created_at ≤ c.ttl) ++ [ours] := by
    unfold cleanup_expired
    dsimp only
    rw [List.filter_append]
    congr 1
    simp only [hours, List.filter_cons, List.filter_nil]
    rw [if_pos (by simp; linarith)]
  have hlen1 : (cleanup_expired t_put
      { c with entries := c.entries ++ [ours] }).entries.length ≤
      (cleanup_expired t_put
        { c with entries := c.entries ++ [ours] }).max_entries := by
    rw [hstep1]
    have hfl := List.length_filter_le
      (fun e : SemanticCacheEntry => decide (t_put - e.created_at ≤ c.ttl))
      c.entries
    show _ ≤ c.max_entries
    rw [List.length_append]
    simp only [List.length_cons, List.length_nil]
    omega
  have hsE : s'.entries =
      c.entries.filter (fun e => t_put - e.created_at ≤ c.ttl) ++ [ours] := by
    rw [hput]
    unfold evict_lru
    rw [if_pos hlen1]
    exact hstep1
  have hsT : s'.similarity_threshold = c.similarity_threshold := by
    rw [hput]
    unfold evict_lru
    split_ifs
    all_goals rfl
  have hsTtl : s'.ttl = c.ttl := by
    rw [hput]
    unfold evict_lru
    split_ifs
    all_goals rfl
  have he2 : (cleanup_expired t_get s').entries =
      ((c.entries.filter (fun e => t_put - e.created_at ≤ c.ttl)).filter
        (fun e => t_get - e.created_at ≤ c.ttl)) ++ [ours] := by
    unfold cleanup_expired
    dsimp only
    rw [hsE, hsTtl, List.filter_append]
    congr 1
    simp only [hours, List.filter_cons, List.filter_nil]
    rw [if_pos (by simp; linarith)]
  have hscore_ours :
      totalScore simf (embedf prompt) none ours = 1 := by
    rw [totalScore, hours]
    simp [metadata_bonus, hsim]
  have hoursmem : ours ∈ (cleanup_expired t_get s').entries := by
    rw [he2]
    exact List.mem_append_right _ (by simp)
  have hreach := findBest_ge s'.similarity_threshold
    (totalScore simf (embedf prompt) none)
    (cleanup_expired t_get s').entries ours hoursmem
    (by rw [hscore_ours]; norm_num)
    (by rw [hscore_ours, hsT]; exact hth)
  rw [hscore_ours] at hreach
  unfold semantic_get
  dsimp only
  rw [if_neg (by simp [hp]), if_neg hemb]
  rcases findBest_spec s'.similarity_threshold
      (totalScore simf (embedf prompt) none)
      (cleanup_expired t_get s').entries with hnone | ⟨b, hbmem, hbeq, hbth⟩
  · rw [hnone] at hreach
    norm_num at hreach
  · rw [hbeq] at hreach ⊢
    refine ⟨b, rfl, ?_, ?_⟩
    · have hb1 : 1 ≤ totalScore simf (embedf prompt) none b := by
        simpa using hreach
      rw [totalScore] at hb1
      simpa [metadata_bonus] using hb1
    · rw [he2] at hbmem
      rcases List.mem_append.mp hbmem with h | h
      · exact Or.inr (List.mem_filter.mp (List.mem_filter.mp h).1).1
      · left
        have : b = ours := by simpa using h
        rw [this, hours]

/-- Closed witness for `semantic_get_after_put` on an empty cache with
threshold 0.85 and TTL 24h. -/
theorem semantic_get_after_put_witness :
    ∃ e, (semantic_get (fun _ => [1]) (fun a b => if a = b then 1 else 0) 100
        (semantic_put (fun _ => [1]) (fun s => s) 0
          ⟨10, 17/20, 86400, []⟩ "p" "r" (1/2) [])
        "p" none).1 = some e.response_text ∧
      1 ≤ (fun a b : List ℚ => if a = b then (1 : ℚ) else 0)
        ((fun _ : String => [(1 : ℚ)]) "p") e.embedding ∧
      (e.response_text = "r" ∨
        e ∈ (⟨10, 17/20, 86400, []⟩ : SemanticCache).entries) :=
  semantic_get_after_put (fun _ => [1]) (fun a b => if a = b then 1 else 0)
    (fun s => s) ⟨10, 17/20, 86400, []⟩ "p" "r" (1/2) [] 0 100
    (by decide) (by decide) (by simp) (by simp) (by decide)
    (by norm_num) (by norm_num) (by simp) (by norm_num)

end ResumeAI
